import Mathlib

/-!
Verification of the `radix` library (`src/lib.rs`): conversion of
non-negative integers between textual representations in radices 2-36.

The embedding below is a shallow, executable translation of the Rust source.
Strings are modelled as `List Char` (Rust `char` and Lean `Char` are both
Unicode scalar values), the machine-word magnitude as `Nat` (the claims under
verification are restricted to magnitudes that fit the native unsigned width,
where the Rust `usize` arithmetic and `Nat` arithmetic agree), and fallible
Rust functions returning `RadixResult<T>` become `Except RadixErr T`.
-/

namespace RadixSpec

/-- Rust: `enum RadixErr` (src/lib.rs lines 22-31). -/
inductive RadixErr where
  | RadixNotSupported (radix : Nat)
  | EmptyInput
  | FailedToPopFromStack
  | FailedToUppercase
  | IllegalChar (c : Char)
  | IllegalDigit (d : Nat)
  | InvalidDigit (digit : Char) (radix : Nat)
deriving DecidableEq

/-- Rust: `const MAX_RADIX: usize = 36` (line 72). -/
def MAX_RADIX : Nat := 36

/-- Rust: `const MIN_RADIX: usize = 2` (line 73). -/
def MIN_RADIX : Nat := 2

/-- Rust: `fn is_radix_valid(radix: usize) -> bool` (lines 75-77). -/
def is_radix_valid (radix : Nat) : Bool :=
  decide (MIN_RADIX ≤ radix ∧ radix ≤ MAX_RADIX)

/-- Rust: `RadixNum::validate_radix` (lines 130-135). -/
def validate_radix (radix : Nat) : Except RadixErr Unit :=
  if !is_radix_valid radix then .error (.RadixNotSupported radix)
  else .ok ()

/-- Rust: `fn modulus(a: usize, b: usize) -> usize { ((a % b) + b) % b }`
(lines 398-400). -/
def modulus (a b : Nat) : Nat := ((a % b) + b) % b

/-- Models Rust `char::is_whitespace`, i.e. membership in the Unicode
White_Space set: U+0009-U+000D, U+0020, U+0085, U+00A0, U+1680,
U+2000-U+200A, U+2028, U+2029, U+202F, U+205F, U+3000. -/
def is_rust_whitespace (c : Char) : Bool :=
  decide ((9 ≤ c.toNat ∧ c.toNat ≤ 13) ∨ c.toNat = 32 ∨ c.toNat = 133 ∨
    c.toNat = 160 ∨ c.toNat = 5760 ∨ (8192 ≤ c.toNat ∧ c.toNat ≤ 8202) ∨
    c.toNat = 8232 ∨ c.toNat = 8233 ∨ c.toNat = 8239 ∨ c.toNat = 8287 ∨
    c.toNat = 12288)

/-- Models Rust `str::trim`: remove leading and trailing whitespace. -/
def trim (s : List Char) : List Char :=
  ((s.dropWhile is_rust_whitespace).reverse.dropWhile is_rust_whitespace).reverse

/-- Models Rust `char::to_uppercase` (an iterator of chars), restricted to the
ASCII range: an ASCII lowercase letter maps to its uppercase counterpart and
every other character maps to itself.  (The special multi-character Unicode
case mappings are irrelevant here: every claim under verification either
involves ASCII text only or quantifies over text that uppercasing leaves
unchanged.) -/
def char_to_uppercase (c : Char) : List Char :=
  if 97 ≤ c.toNat ∧ c.toNat ≤ 122 then [Char.ofNat (c.toNat - 32)] else [c]

/-- Models Rust `str::to_uppercase`: uppercase each char and concatenate. -/
def to_uppercase (s : List Char) : List Char :=
  s.flatMap char_to_uppercase

/-- Rust: the closure `is_valid_digit` inside `RadixNum::validate_base`
(lines 141-145).  The upper letter bound is the character
`('A' as usize + radix - 10) as u8 as char`; `as u8` truncates mod 256, and
`char` comparison is by code point. -/
def is_valid_digit (radix : Nat) (d : Char) : Bool :=
  let x : Bool := decide (48 ≤ d.toNat ∧ d.toNat ≤ 57)
  let y : Bool := decide (65 ≤ d.toNat ∧ d.toNat ≤ (65 + radix - 10) % 256)
  x || y

/-- Rust: `RadixNum::validate_base` (lines 138-150).  Note the order of
operations in the source: the `EmptyInput` check inspects the *untrimmed*
input, then the input is trimmed and uppercased, and each remaining character
is checked with `is_valid_digit`; the first invalid character is reported. -/
def validate_base (base : List Char) (radix : Nat) : Except RadixErr (List Char) :=
  if base = [] then .error .EmptyInput
  else
    let base := to_uppercase (trim base)
    match base.find? (fun d => ! is_valid_digit radix d) with
    | some digit => .error (.InvalidDigit digit radix)
    | none => .ok base

/-- Rust: the inner `fn digit_to_dec(digit: char)` of `radix_x_to_dec`
(lines 339-345): `'0'..='9'` maps to `digit - '0'`, `'A'..='Z'` maps to
`digit - 55`, anything else is `IllegalChar`. -/
def digit_to_dec (digit : Char) : Except RadixErr Nat :=
  if 48 ≤ digit.toNat ∧ digit.toNat ≤ 57 then .ok (digit.toNat - 48)
  else if 65 ≤ digit.toNat ∧ digit.toNat ≤ 90 then .ok (digit.toNat - 55)
  else .error (.IllegalChar digit)

/-- Rust: the `for (idx, token) in base.chars().rev().enumerate()` loop of
`radix_x_to_dec` (lines 352-363), processing the list of characters already
reversed (least-significant first), with `idx` the current position and `acc`
the accumulated `return_val`.  Each char is uppercased (`nth(0)` of the
uppercase iterator, `FailedToUppercase` if empty), converted with
`digit_to_dec`, and `digit_to_dec(digit) * radix.pow(idx)` is added. -/
def radix_x_to_dec_loop (radix : Nat) : List Char → Nat → Nat → Except RadixErr Nat
  | [], _, acc => .ok acc
  | token :: rest, idx, acc =>
    match (char_to_uppercase token).head? with
    | none => .error .FailedToUppercase
    | some digit =>
      match digit_to_dec digit with
      | .error e => .error e
      | .ok v => radix_x_to_dec_loop radix rest (idx + 1) (acc + v * radix ^ idx)

/-- Rust: `RadixNum::radix_x_to_dec` (lines 333-366): validate the radix,
validate (and canonicalise) the digit text, then run the accumulation loop
over the reversed characters starting at position 0 with accumulator 0. -/
def radix_x_to_dec (base : List Char) (radix : Nat) : Except RadixErr Nat :=
  match validate_radix radix with
  | .error e => .error e
  | .ok _ =>
    match validate_base base radix with
    | .error e => .error e
    | .ok base => radix_x_to_dec_loop radix base.reverse 0 0

/-- Rust: the closure `get_offset` inside `dec_to_radix_x` (lines 292-298):
digit values `0..=9` use offset `'0' as u8 = 48`, values `10..=36` use
offset 55, anything larger is `IllegalDigit`. -/
def get_offset (digit : Nat) : Except RadixErr Nat :=
  if digit ≤ 9 then .ok 48
  else if digit ≤ 36 then .ok 55
  else .error (.IllegalDigit digit)

/-- Rust: the `while number > 0` loop of `dec_to_radix_x` (lines 306-322)
together with the stack-draining loop (lines 324-328).  Each iteration
computes `remainder = modulus(number, radix)`, divides `number` by `radix`,
and pushes the char `(remainder + offset) as u8 as char` onto the stack;
the final string is the stack popped top-first.  The Rust `Vec` push/pop pair
reverses the least-significant-first digit stream into most-significant-first
order; here the stack is a `List Char` whose head is the top, so pushing is
consing and the drained string is the stack list itself.  Structural `fuel`
makes the recursion total; `fuel = number` always suffices for a valid radix
(each iteration at least halves `number`), and the fuel-exhausted branch
(which returns the stack accumulated so far) is proved unreachable below. -/
def dec_to_radix_x_loop (radix : Nat) : Nat → Nat → List Char → Except RadixErr (List Char)
  | 0, _, stack => .ok stack
  | fuel + 1, number, stack =>
    if number = 0 then .ok stack
    else
      let remainder := modulus number radix
      match get_offset remainder with
      | .error e => .error e
      | .ok offset =>
        dec_to_radix_x_loop radix fuel (number / radix)
          (Char.ofNat ((remainder + offset) % 256) :: stack)

/-- Rust: `RadixNum::dec_to_radix_x` (lines 286-331): validate the radix,
return `"0"` for magnitude 0, otherwise run the division loop. -/
def dec_to_radix_x (number radix : Nat) : Except RadixErr (List Char) :=
  match validate_radix radix with
  | .error e => .error e
  | .ok _ =>
    if number = 0 then .ok ['0']
    else dec_to_radix_x_loop radix number number []

/-- Models `usize::to_string` (Rust std decimal formatting): the base-10
digit string of `n`, most significant first, `"0"` for zero.  Decimal
formatting is repeated division by 10, which is exactly the repository's own
digit loop at radix 10, so it is reused; the error default is unreachable
(proved below). -/
def nat_to_string (n : Nat) : List Char :=
  match dec_to_radix_x n 10 with
  | .ok s => s
  | .error _ => ['0']

/-- Rust: `enum RadixNum` (lines 81-118): 35 variants `Radix2(String)` ..
`Radix36(String)`, one per radix, each wrapping the digit string.  Modelled
as the radix tag together with the digit string; the proof field captures
that the closed set of variants only covers radices 2-36. -/
structure RadixNum where
  rx : Nat
  digits : List Char
  hrx : is_radix_valid rx = true

/-- Rust: `RadixNum::as_str` (lines 152-190): every variant returns its
wrapped string. -/
def RadixNum.as_str (self : RadixNum) : List Char := self.digits

/-- Rust: `RadixNum::radix` (lines 238-276): each variant returns its tag. -/
def RadixNum.radix (self : RadixNum) : Nat := self.rx

/-- Rust: `RadixNum::digits` (lines 282-284): iterator over the chars of
`as_str`. -/
def RadixNum.digit_seq (self : RadixNum) : List Char := self.as_str

/-- Rust: `RadixNum::as_decimal` (lines 278-280). -/
def RadixNum.as_decimal (self : RadixNum) : Except RadixErr Nat :=
  radix_x_to_dec self.as_str self.radix

/-- Rust: `RadixNum::with_radix` (lines 194-235): decode `self` to its
magnitude, re-encode at the requested radix, then wrap in the variant for
that radix; the final `match radix` arm for a radix outside 2-36 returns
`RadixNotSupported` (it is unreachable, since `dec_to_radix_x` already
rejected such a radix). -/
def RadixNum.with_radix (self : RadixNum) (radix : Nat) : Except RadixErr RadixNum :=
  match self.as_decimal with
  | .error e => .error e
  | .ok dec =>
    match dec_to_radix_x dec radix with
    | .error e => .error e
    | .ok digits_radix_x =>
      if h : is_radix_valid radix = true then .ok ⟨radix, digits_radix_x, h⟩
      else .error (.RadixNotSupported radix)

/-- Rust: `impl From<usize> for RadixNum` (lines 369-371) and the identical
impls for `u8`/`u16`/`u32`/`u64`/`u128` (lines 373-391): wrap the decimal
string of the integer in the `Radix10` variant. -/
def RadixNum.from_nat (decimal : Nat) : RadixNum :=
  ⟨10, nat_to_string decimal, rfl⟩

/-- Rust: `RadixNum::from_str` (lines 122-127): validate the radix, validate
the text, decode it, print the value in decimal, wrap as `Radix10`, and
re-encode at the requested radix. -/
def RadixNum.from_str (base : List Char) (radix : Nat) : Except RadixErr RadixNum :=
  match validate_radix radix with
  | .error e => .error e
  | .ok _ =>
    match validate_base base radix with
    | .error e => .error e
    | .ok base =>
      match radix_x_to_dec base radix with
      | .error e => .error e
      | .ok decimal => (RadixNum.mk 10 (nat_to_string decimal) rfl).with_radix radix

/-! Specification-side valuations and character predicates, used to state the
claims. -/

/-- The numeric value denoted by a digit character under the alphabet
`0123456789ABCDEFGHIJKLMNOPQRSTUVWXYZ` (the value `digit_to_dec` returns on
its `Ok` branch). -/
def digit_value (c : Char) : Nat :=
  if c.toNat ≤ 57 then c.toNat - 48 else c.toNat - 55

/-- Horner-form positional valuation of a least-significant-first digit
list. -/
def positional_value (r : Nat) : List Char → Nat
  | [] => 0
  | c :: rest => digit_value c + r * positional_value r rest

/-- Literal power-sum valuation of a least-significant-first digit list:
`digitValue(char) * r ^ position`, `position` starting at `idx` for the head
character and increasing. -/
def power_sum (r : Nat) : List Char → Nat → Nat
  | [], _ => 0
  | c :: rest, idx => digit_value c * r ^ idx + power_sum r rest (idx + 1)

/-- A character of the fixed digit alphabet: `'0'..'9'` or `'A'..'Z'`. -/
def good_char (c : Char) : Bool :=
  decide ((48 ≤ c.toNat ∧ c.toNat ≤ 57) ∨ (65 ≤ c.toNat ∧ c.toNat ≤ 90))

/-- A canonical digit character for radix `r`: a character of the fixed
alphabet whose denoted value is strictly below `r`. -/
def canonical_char (r : Nat) (c : Char) : Bool :=
  decide ((48 ≤ c.toNat ∧ c.toNat ≤ 57 ∧ c.toNat - 48 < r) ∨
    (65 ≤ c.toNat ∧ c.toNat ≤ 90 ∧ c.toNat - 55 < r))

/-- The canonical-representation invariant of the spec's data model: the
digit string is non-empty, has no whitespace anywhere, is fixed by
uppercasing, and every character denotes a value strictly below the stored
radix. -/
def RadixNum.well_formed (x : RadixNum) : Prop :=
  x.digits ≠ [] ∧
  (∀ c ∈ x.digits, is_rust_whitespace c = false) ∧
  (∀ c ∈ x.digits, char_to_uppercase c = [c]) ∧
  (∀ c ∈ x.digits, canonical_char x.rx c = true)

instance (x : RadixNum) : Decidable x.well_formed := by
  unfold RadixNum.well_formed
  infer_instance

/-! Supporting lemmas. -/

theorem is_radix_valid_iff {r : Nat} : is_radix_valid r = true ↔ 2 ≤ r ∧ r ≤ 36 := by
  simp [is_radix_valid, MIN_RADIX, MAX_RADIX]

theorem validate_radix_ok {r : Nat} (h : is_radix_valid r = true) :
    validate_radix r = .ok () := by
  simp [validate_radix, h]

theorem validate_radix_err {r : Nat} (h : is_radix_valid r = false) :
    validate_radix r = .error (.RadixNotSupported r) := by
  simp [validate_radix, h]

theorem toNat_ofNat_valid {n : Nat} (h : n < 55296) : (Char.ofNat n).toNat = n := by
  simp [Char.ofNat, Nat.isValidChar, h, Char.toNat, Char.ofNatAux]
  rfl

theorem modulus_eq {a b : Nat} (hb : 0 < b) : modulus a b = a % b := by
  unfold modulus
  rw [Nat.add_mod_right]
  exact Nat.mod_eq_of_lt (Nat.mod_lt _ hb)

theorem good_of_canonical {r : Nat} {c : Char} (h : canonical_char r c = true) :
    good_char c = true := by
  simp [canonical_char] at h
  simp [good_char]
  omega

theorem ws_false_of_good {c : Char} (h : good_char c = true) :
    is_rust_whitespace c = false := by
  simp [good_char] at h
  simp [is_rust_whitespace]
  omega

theorem upper_fixed_of_good {c : Char} (h : good_char c = true) :
    char_to_uppercase c = [c] := by
  simp [good_char] at h
  unfold char_to_uppercase
  rw [if_neg (by omega)]

theorem valid_digit_of_canonical {r : Nat} {c : Char} (hr36 : r ≤ 36)
    (h : canonical_char r c = true) : is_valid_digit r c = true := by
  simp [canonical_char] at h
  simp [is_valid_digit]
  omega

theorem digit_to_dec_of_good {c : Char} (h : good_char c = true) :
    digit_to_dec c = .ok (digit_value c) := by
  simp [good_char] at h
  rcases h with ⟨h1, h2⟩ | ⟨h1, h2⟩
  · simp [digit_to_dec, digit_value, h1, h2]
  · have h3 : ¬(c.toNat ≤ 57) := by omega
    simp [digit_to_dec, digit_value, h1, h2, h3]

theorem dropWhile_eq_self_of {p : Char → Bool} {l : List Char}
    (h : ∀ c ∈ l, p c = false) : l.dropWhile p = l := by
  cases l with
  | nil => rfl
  | cons a t =>
    rw [List.dropWhile_cons]
    simp [h a (by simp)]

theorem trim_eq_self {l : List Char} (h : ∀ c ∈ l, is_rust_whitespace c = false) :
    trim l = l := by
  unfold trim
  rw [dropWhile_eq_self_of h,
    dropWhile_eq_self_of (fun c hm => h c (List.mem_reverse.mp hm)),
    List.reverse_reverse]

theorem to_uppercase_eq_self {l : List Char} (h : ∀ c ∈ l, char_to_uppercase c = [c]) :
    to_uppercase l = l := by
  induction l with
  | nil => rfl
  | cons a t ih =>
    unfold to_uppercase at ih ⊢
    simp only [List.flatMap_cons, h a (by simp), ih (fun c hm => h c (by simp [hm]))]
    rfl

theorem validate_base_ok_of_canonical {r : Nat} (hr36 : r ≤ 36) {l : List Char}
    (hne : l ≠ []) (hc : ∀ c ∈ l, canonical_char r c = true) :
    validate_base l r = .ok l := by
  have hg : ∀ c ∈ l, good_char c = true := fun c hm => good_of_canonical (hc c hm)
  have htrim : trim l = l := trim_eq_self (fun c hm => ws_false_of_good (hg c hm))
  have hupper : to_uppercase l = l :=
    to_uppercase_eq_self (fun c hm => upper_fixed_of_good (hg c hm))
  have hfind : l.find? (fun d => ! is_valid_digit r d) = none := by
    rw [List.find?_eq_none]
    intro x hx
    simp [valid_digit_of_canonical hr36 (hc x hx)]
  unfold validate_base
  rw [if_neg hne]
  simp only [htrim, hupper, hfind]

theorem radix_x_to_dec_loop_spec (r : Nat) {l : List Char}
    (hg : ∀ c ∈ l, good_char c = true) :
    ∀ idx acc, radix_x_to_dec_loop r l idx acc =
      .ok (acc + positional_value r l * r ^ idx) := by
  induction l with
  | nil => intro idx acc; simp [radix_x_to_dec_loop, positional_value]
  | cons c rest ih =>
    intro idx acc
    have hc : good_char c = true := hg c (by simp)
    have hrest : ∀ d ∈ rest, good_char d = true := fun d hm => hg d (by simp [hm])
    simp only [radix_x_to_dec_loop, upper_fixed_of_good hc, List.head?,
      digit_to_dec_of_good hc, ih hrest]
    congr 1
    simp [positional_value]
    ring

theorem power_sum_eq (r : Nat) (l : List Char) :
    ∀ idx, power_sum r l idx = positional_value r l * r ^ idx := by
  induction l with
  | nil => intro idx; simp [power_sum, positional_value]
  | cons c rest ih =>
    intro idx
    simp [power_sum, positional_value, ih (idx + 1)]
    ring

theorem radix_x_to_dec_canonical {r : Nat} (hr : is_radix_valid r = true)
    {l : List Char} (hne : l ≠ []) (hc : ∀ c ∈ l, canonical_char r c = true) :
    radix_x_to_dec l r = .ok (positional_value r l.reverse) := by
  obtain ⟨_, hr36⟩ := is_radix_valid_iff.mp hr
  have hgrev : ∀ c ∈ l.reverse, good_char c = true :=
    fun c hm => good_of_canonical (hc c (List.mem_reverse.mp hm))
  unfold radix_x_to_dec
  rw [validate_radix_ok hr, validate_base_ok_of_canonical hr36 hne hc]
  show radix_x_to_dec_loop r l.reverse 0 0 = Except.ok (positional_value r l.reverse)
  rw [radix_x_to_dec_loop_spec r hgrev 0 0]
  simp

theorem head?_append_of_ne_nil {l l2 : List Char} (h : l ≠ []) :
    (l ++ l2).head? = l.head? := by
  cases l with
  | nil => exact absurd rfl h
  | cons a t => rfl

theorem dec_to_radix_x_loop_spec {r : Nat} (hr2 : 2 ≤ r) (hr36 : r ≤ 36) :
    ∀ fuel n stack, n ≤ fuel →
      ∃ body, dec_to_radix_x_loop r fuel n stack = .ok (body ++ stack) ∧
        (∀ c ∈ body, canonical_char r c = true) ∧
        positional_value r body.reverse = n ∧
        (n = 0 → body = []) ∧
        (n ≠ 0 → body ≠ [] ∧ body.head? ≠ some '0') := by
  intro fuel
  induction fuel with
  | zero =>
    intro n stack hn
    have h0 : n = 0 := Nat.le_zero.mp hn
    subst h0
    exact ⟨[], rfl, by simp, by simp [positional_value], fun _ => rfl,
      fun h => absurd rfl h⟩
  | succ fuel ih =>
    intro n stack hn
    by_cases h0 : n = 0
    · subst h0
      exact ⟨[], by simp [dec_to_radix_x_loop], by simp, by simp [positional_value],
        fun _ => rfl, fun h => absurd rfl h⟩
    · have hrpos : 0 < r := by omega
      have hmod : modulus n r = n % r := modulus_eq hrpos
      have hltr : n % r < r := Nat.mod_lt _ hrpos
      have hoff : ∃ offset, get_offset (n % r) = .ok offset ∧
          ((n % r + offset) % 256 = n % r + offset) ∧
          (n % r ≤ 9 → offset = 48) ∧ (¬(n % r ≤ 9) → offset = 55) := by
        by_cases h9 : n % r ≤ 9
        · exact ⟨48, by simp [get_offset, h9], by omega, fun _ => rfl,
            fun h => absurd h9 h⟩
        · refine ⟨55, ?_, by omega, fun h => absurd h h9, fun _ => rfl⟩
          have h36 : n % r ≤ 36 := by omega
          simp [get_offset, h9, h36]
      obtain ⟨offset, hget, hmod256, h48, h55⟩ := hoff
      set c0 := Char.ofNat ((n % r + offset) % 256) with hc0def
      have hco : c0.toNat = n % r + offset := by
        rw [hc0def, hmod256]
        exact toNat_ofNat_valid (by omega)
      have hofr : (48 ≤ c0.toNat ∧ c0.toNat ≤ 57 ∧ c0.toNat - 48 = n % r) ∨
          (65 ≤ c0.toNat ∧ c0.toNat ≤ 90 ∧ c0.toNat - 55 = n % r) := by
        by_cases h9 : n % r ≤ 9
        · left; rw [hco, h48 h9]; omega
        · right; rw [hco, h55 h9]; omega
      have hcanon : canonical_char r c0 = true := by
        simp [canonical_char]; omega
      have hdv : digit_value c0 = n % r := by
        unfold digit_value
        rcases hofr with ⟨h1, h2, h3⟩ | ⟨h1, h2, h3⟩
        · rw [if_pos h2]; exact h3
        · rw [if_neg (by omega)]; exact h3
      have hfuel : n / r ≤ fuel := by
        have : n / r < n := Nat.div_lt_self (by omega) (by omega)
        omega
      obtain ⟨body2, hloop, hcan2, hval2, hz2, hnz2⟩ := ih (n / r) (c0 :: stack) hfuel
      refine ⟨body2 ++ [c0], ?_, ?_, ?_, fun h => absurd h h0, fun _ => ⟨by simp, ?_⟩⟩
      · simp only [dec_to_radix_x_loop, if_neg h0, hmod, hget]
        rw [hloop]
        simp
      · intro c hm
        rcases List.mem_append.mp hm with hm2 | hm2
        · exact hcan2 c hm2
        · rw [List.mem_singleton.mp hm2]; exact hcanon
      · rw [List.reverse_append, show ([c0] : List Char).reverse = [c0] from rfl,
          List.singleton_append]
        show digit_value c0 + r * positional_value r body2.reverse = n
        rw [hdv, hval2]
        exact Nat.mod_add_div n r
      · by_cases hq : n / r = 0
        · rw [hz2 hq]
          simp only [List.nil_append, List.head?_cons]
          intro hcontra
          have : c0 = '0' := by simpa using hcontra
          have h48' : c0.toNat = 48 := by rw [this]; rfl
          have hnlt : n % r = n := by
            have : n % r = n := by
              have := Nat.div_eq_zero_iff (by omega : 0 < r) |>.mp hq
              exact Nat.mod_eq_of_lt this
            exact this
          rcases hofr with ⟨_, _, h3⟩ | ⟨h1, _, _⟩ <;> omega
        · rw [head?_append_of_ne_nil (hnz2 hq).1]
          exact (hnz2 hq).2

theorem dec_to_radix_x_spec (n r : Nat) (hr : is_radix_valid r = true) :
    ∃ s, dec_to_radix_x n r = .ok s ∧ s ≠ [] ∧
      (∀ c ∈ s, canonical_char r c = true) ∧
      positional_value r s.reverse = n ∧
      (n = 0 → s = ['0']) ∧ (n ≠ 0 → s.head? ≠ some '0') := by
  obtain ⟨hr2, hr36⟩ := is_radix_valid_iff.mp hr
  unfold dec_to_radix_x
  rw [validate_radix_ok hr]
  by_cases h0 : n = 0
  · subst h0
    refine ⟨['0'], by simp, by simp, ?_, by simp [positional_value, digit_value],
      fun _ => rfl, fun h => absurd rfl h⟩
    intro c hm
    rw [List.mem_singleton.mp hm]
    simp [canonical_char]
    omega
  · obtain ⟨body, hloop, hcan, hval, _, hnz⟩ :=
      dec_to_radix_x_loop_spec hr2 hr36 n n [] (Nat.le_refl n)
    rw [List.append_nil] at hloop
    refine ⟨body, by simp [if_neg h0, hloop], (hnz h0).1, hcan, hval,
      fun h => absurd h h0, fun _ => (hnz h0).2⟩

theorem nat_to_string_spec (n : Nat) :
    nat_to_string n ≠ [] ∧ (∀ c ∈ nat_to_string n, canonical_char 10 c = true) ∧
    positional_value 10 (nat_to_string n).reverse = n ∧
    (n = 0 → nat_to_string n = ['0']) := by
  obtain ⟨s, hs, hne, hc, hval, hz, _⟩ := dec_to_radix_x_spec n 10 (by decide)
  unfold nat_to_string
  rw [hs]
  exact ⟨hne, hc, hval, hz⟩

theorem from_nat_well_formed (n : Nat) : (RadixNum.from_nat n).well_formed := by
  obtain ⟨hne, hc, _, _⟩ := nat_to_string_spec n
  exact ⟨hne, fun c hm => ws_false_of_good (good_of_canonical (hc c hm)),
    fun c hm => upper_fixed_of_good (good_of_canonical (hc c hm)), hc⟩

theorem as_decimal_of_well_formed {x : RadixNum} (hx : x.well_formed) :
    x.as_decimal = .ok (positional_value x.rx x.digits.reverse) :=
  radix_x_to_dec_canonical x.hrx hx.1 hx.2.2.2

theorem from_nat_as_decimal (n : Nat) : (RadixNum.from_nat n).as_decimal = .ok n := by
  obtain ⟨_, _, hval, _⟩ := nat_to_string_spec n
  have h := as_decimal_of_well_formed (from_nat_well_formed n)
  rwa [show (RadixNum.from_nat n).digits = nat_to_string n from rfl,
    show (RadixNum.from_nat n).rx = 10 from rfl, hval] at h

theorem with_radix_eq_ok {x : RadixNum} {n : Nat} (hx : x.as_decimal = .ok n)
    {r : Nat} (hr : is_radix_valid r = true) :
    ∃ s, x.with_radix r = .ok ⟨r, s, hr⟩ ∧ s ≠ [] ∧
      (∀ c ∈ s, canonical_char r c = true) ∧ positional_value r s.reverse = n ∧
      (n = 0 → s = ['0']) := by
  obtain ⟨s, hs, hne, hc, hval, hz, _⟩ := dec_to_radix_x_spec n r hr
  refine ⟨s, ?_, hne, hc, hval, hz⟩
  unfold RadixNum.with_radix
  simp only [hx, hs]
  rw [dif_pos hr]

theorem with_radix_ok_inv {x : RadixNum} {r : Nat} {y : RadixNum}
    (h : x.with_radix r = .ok y) :
    ∃ n, x.as_decimal = .ok n ∧ dec_to_radix_x n r = .ok y.digits ∧ y.rx = r := by
  unfold RadixNum.with_radix at h
  cases hd : x.as_decimal with
  | error e => simp [hd] at h
  | ok n =>
    simp only [hd] at h
    cases he : dec_to_radix_x n r with
    | error e => simp [he] at h
    | ok s =>
      simp only [he] at h
      by_cases hv : is_radix_valid r = true
      · rw [dif_pos hv] at h
        injection h with h2
        subst h2
        exact ⟨n, rfl, he, rfl⟩
      · rw [dif_neg hv] at h
        simp at h

theorem dec_to_radix_x_ok_inv {n r : Nat} {d : List Char}
    (h : dec_to_radix_x n r = .ok d) :
    is_radix_valid r = true ∧ d ≠ [] ∧ (∀ c ∈ d, canonical_char r c = true) ∧
    positional_value r d.reverse = n ∧ (n = 0 → d = ['0']) := by
  by_cases hr : is_radix_valid r = true
  · obtain ⟨s, hs, hne, hc, hval, hz, _⟩ := dec_to_radix_x_spec n r hr
    rw [hs] at h
    injection h with h2
    subst h2
    exact ⟨hr, hne, hc, hval, hz⟩
  · have hr2 : is_radix_valid r = false := by simpa using hr
    unfold dec_to_radix_x at h
    rw [validate_radix_err hr2] at h
    simp at h

theorem with_radix_ok_well_formed {x : RadixNum} {r : Nat} {y : RadixNum}
    (h : x.with_radix r = .ok y) : y.well_formed := by
  obtain ⟨n, _, he, hrx⟩ := with_radix_ok_inv h
  obtain ⟨_, hne, hc, _, _⟩ := dec_to_radix_x_ok_inv he
  subst hrx
  exact ⟨hne, fun c hm => ws_false_of_good (good_of_canonical (hc c hm)),
    fun c hm => upper_fixed_of_good (good_of_canonical (hc c hm)), hc⟩

theorem from_str_ok_inv {s : List Char} {r : Nat} {y : RadixNum}
    (h : RadixNum.from_str s r = .ok y) :
    ∃ base dec, validate_base s r = .ok base ∧ radix_x_to_dec base r = .ok dec ∧
      (RadixNum.mk 10 (nat_to_string dec) rfl).with_radix r = .ok y := by
  unfold RadixNum.from_str at h
  cases hv : validate_radix r with
  | error e => simp [hv] at h
  | ok u =>
    simp only [hv] at h
    cases hb : validate_base s r with
    | error e => simp [hb] at h
    | ok base =>
      simp only [hb] at h
      cases hx : radix_x_to_dec base r with
      | error e => simp [hx] at h
      | ok dec =>
        simp only [hx] at h
        exact ⟨base, dec, rfl, hx, h⟩

/-! Claim theorems. -/

/-- C1: for every native unsigned integer `n` and every radix `r` with
`2 ≤ r ≤ 36`, parsing the string produced by converting `n` to decimal and
then re-encoding it at radix `r` succeeds, and `as_decimal` of the result
equals `n` (full round-trip through encode, radix change, stringify, and
parse).  The native-width bound on `n` is carried over from the claim; the
proof does not consume it, because in the `Nat` model the arithmetic never
overflows, so the round-trip holds on all of the claimed range. -/
theorem radix_c1_round_trip (n r : Nat) (hr : is_radix_valid r = true)
    (hn : n < 2 ^ 64) :
    ∃ x y, (RadixNum.from_nat n).with_radix r = .ok x ∧
      RadixNum.from_str x.as_str r = .ok y ∧ y.as_decimal = .ok n := by
  obtain ⟨s, hwr, hne, hc, hval, _⟩ := with_radix_eq_ok (from_nat_as_decimal n) hr
  obtain ⟨_, hr36⟩ := is_radix_valid_iff.mp hr
  have hvb : validate_base s r = .ok s := validate_base_ok_of_canonical hr36 hne hc
  have hdec : radix_x_to_dec s r = .ok n := by
    rw [radix_x_to_dec_canonical hr hne hc, hval]
  have hfs : RadixNum.from_str s r =
      (RadixNum.mk 10 (nat_to_string n) rfl).with_radix r := by
    unfold RadixNum.from_str
    simp only [validate_radix_ok hr, hvb, hdec]
  refine ⟨⟨r, s, hr⟩, ⟨r, s, hr⟩, hwr, ?_, ?_⟩
  · show RadixNum.from_str s r = .ok ⟨r, s, hr⟩
    rw [hfs]
    exact hwr
  · show radix_x_to_dec s r = .ok n
    exact hdec

theorem radix_c1_round_trip_witness :
    ∃ x y, (RadixNum.from_nat 3735928559).with_radix 16 = .ok x ∧
      RadixNum.from_str x.as_str 16 = .ok y ∧ y.as_decimal = .ok 3735928559 :=
  radix_c1_round_trip 3735928559 16 (by decide) (by decide)

/-- C2 (evaluation of the code at the failing inputs of the claim): the
claim says `parse` accepts exactly the characters `'0'..'9'` denoting a
value below the radix, or `'A'..'A' + (radix - 11)`, and that every accepted
character denotes a value strictly below the radix.  The code instead
accepts every one of `'0'..'9'` at any radix, and letters up through
`'A' + (radix - 10)`: `validate_base` accepts `'G'` at radix 16 (denoting
16, not below 16) and `from_str "G" 16` succeeds with value 16 (digits
`"10"`); likewise `from_str "9" 2` succeeds with value 9 (digits `"1001"`),
where the claim demands an `InvalidDigit` failure in both cases. -/
theorem radix_c2_invalid_digit_eval :
    validate_base ['G'] 16 = .ok ['G'] ∧
    (RadixNum.from_str ['G'] 16).map (fun v => (v.radix, v.as_str)) =
      .ok (16, ['1', '0']) ∧
    (RadixNum.from_str ['9'] 2).map (fun v => (v.radix, v.as_str)) =
      .ok (2, ['1', '0', '0', '1']) :=
  ⟨rfl, rfl, rfl⟩

/-- C3: for every valid radix `r` in [2,36] and every input text that is
empty after trimming leading and trailing whitespace — including the empty
string itself and whitespace-only strings — `from_str text r` fails with
`EmptyInput`. -/
theorem radix_c3_empty_input (text : List Char) (r : Nat)
    (hr : is_radix_valid r = true) (ht : trim text = []) :
    RadixNum.from_str text r = .error RadixErr.EmptyInput := by
  unfold RadixNum.from_str
  by_cases htext : text = []
  · have hb : validate_base text r = .error .EmptyInput := by
      unfold validate_base
      rw [if_pos htext]
    simp only [validate_radix_ok hr, hb]
  · have hb : validate_base text r = .ok [] := by
      unfold validate_base
      rw [if_neg htext, ht]
      rfl
    have hdec : radix_x_to_dec ([] : List Char) r = .error .EmptyInput := by
      have hb2 : validate_base ([] : List Char) r = .error .EmptyInput := by
        unfold validate_base
        rw [if_pos rfl]
      unfold radix_x_to_dec
      simp only [validate_radix_ok hr, hb2]
    simp only [validate_radix_ok hr, hb, hdec]

theorem radix_c3_empty_input_witness :
    RadixNum.from_str [' ', ' '] 10 = .error RadixErr.EmptyInput ∧
    RadixNum.from_str [] 10 = .error RadixErr.EmptyInput :=
  ⟨radix_c3_empty_input [' ', ' '] 10 (by decide) (by decide),
   radix_c3_empty_input [] 10 (by decide) rfl⟩

/-- C4: every `RadixNum` produced by a public constructor (the `From`
conversions from unsigned integers, `from_str`, or `with_radix`) stores a
canonical digit string: non-empty (zero is stored as the single character
`'0'`), no whitespace, fixed by uppercasing, and every character denotes a
value strictly below the value's radix. -/
theorem radix_c4_canonical_digits :
    (∀ n : Nat, (RadixNum.from_nat n).well_formed) ∧
    ((RadixNum.from_nat 0).digits = ['0']) ∧
    (∀ s r y, RadixNum.from_str s r = .ok y → y.well_formed) ∧
    (∀ x r y, RadixNum.with_radix x r = .ok y → y.well_formed) ∧
    (∀ x r y, RadixNum.with_radix x r = .ok y → x.as_decimal = .ok 0 →
      y.digits = ['0']) := by
  refine ⟨from_nat_well_formed, (nat_to_string_spec 0).2.2.2 rfl, ?_, ?_, ?_⟩
  · intro s r y h
    obtain ⟨_, _, _, _, hw⟩ := from_str_ok_inv h
    exact with_radix_ok_well_formed hw
  · intro x r y h
    exact with_radix_ok_well_formed h
  · intro x r y h h0
    obtain ⟨n, hd, he, _⟩ := with_radix_ok_inv h
    rw [hd] at h0
    injection h0 with h02
    subst h02
    exact (dec_to_radix_x_ok_inv he).2.2.2.2 rfl

theorem radix_c4_canonical_digits_witness :
    ((RadixNum.mk 16 ['1', '0'] rfl) : RadixNum).well_formed :=
  radix_c4_canonical_digits.2.2.1 ['G'] 16 (RadixNum.mk 16 ['1', '0'] rfl) rfl

/-- C5: for every `RadixNum` `x` satisfying the canonical-representation
invariant (which C4 shows holds of every value built through the public
API), and every valid radix `r` in [2,36], `x.with_radix r` succeeds and
preserves the represented value: the resulting value's `as_decimal` equals
`x.as_decimal`. -/
theorem radix_c5_value_preserved (x : RadixNum) (hx : x.well_formed) (r : Nat)
    (hr : is_radix_valid r = true) :
    ∃ y, x.with_radix r = .ok y ∧ y.as_decimal = x.as_decimal := by
  have hd := as_decimal_of_well_formed hx
  obtain ⟨s, hwr, hne, hc, hval, _⟩ := with_radix_eq_ok hd hr
  refine ⟨⟨r, s, hr⟩, hwr, ?_⟩
  show radix_x_to_dec s r = x.as_decimal
  rw [radix_x_to_dec_canonical hr hne hc, hval, hd]

theorem radix_c5_value_preserved_witness :
    ∃ y, (RadixNum.mk 10 ['4', '2'] rfl).with_radix 16 = .ok y ∧
      y.as_decimal = (RadixNum.mk 10 ['4', '2'] rfl).as_decimal :=
  radix_c5_value_preserved (RadixNum.mk 10 ['4', '2'] rfl) (by decide) 16 (by decide)

/-- C6: for every valid radix `r` in [2,36], encoding magnitude 0 yields
exactly the string `"0"` (and so does `from_nat 0` re-encoded at `r`), and
encoding any magnitude `m > 0` yields a non-empty most-significant-first
string of characters of the form `'0' + v` (`v < 10`) or `'A' + (v - 10)`
(`v ≥ 10`) with every digit value `v` strictly below `r`, whose positional
power sum (position 0 at the rightmost character) is exactly `m`, with no
leading zero; the encoding step never fails once the radix is validated. -/
theorem radix_c6_encode (r : Nat) (hr : is_radix_valid r = true) :
    dec_to_radix_x 0 r = .ok ['0'] ∧
    (∃ y, (RadixNum.from_nat 0).with_radix r = .ok y ∧ y.as_str = ['0']) ∧
    (∀ m, 0 < m → ∃ s, dec_to_radix_x m r = .ok s ∧ s ≠ [] ∧
      (∀ c ∈ s, ∃ v, v < r ∧ c.toNat = (if v < 10 then 48 + v else 55 + v)) ∧
      power_sum r s.reverse 0 = m ∧ s.head? ≠ some '0') := by
  refine ⟨?_, ?_, ?_⟩
  · obtain ⟨s, hs, _, _, _, hz, _⟩ := dec_to_radix_x_spec 0 r hr
    rw [hs, hz rfl]
  · obtain ⟨s, hwr, _, _, _, hz⟩ := with_radix_eq_ok (from_nat_as_decimal 0) hr
    exact ⟨⟨r, s, hr⟩, hwr, hz rfl⟩
  · intro m hm
    obtain ⟨s, hs, hne, hc, hval, _, hnz⟩ := dec_to_radix_x_spec m r hr
    refine ⟨s, hs, hne, ?_, ?_, hnz (by omega)⟩
    · intro c hmem
      have hcc := hc c hmem
      simp [canonical_char] at hcc
      rcases hcc with ⟨h1, h2, h3⟩ | ⟨h1, h2, h3⟩
      · exact ⟨c.toNat - 48, h3, by rw [if_pos (by omega)]; omega⟩
      · exact ⟨c.toNat - 55, h3, by rw [if_neg (by omega)]; omega⟩
    · rw [power_sum_eq]
      simp [hval]

theorem radix_c6_encode_witness : dec_to_radix_x 0 29 = .ok ['0'] :=
  (radix_c6_encode 29 (by decide)).1

/-- C7 (amended): for every radix `r` in [2,36] and every input text that
passes validation with validated (trimmed, uppercased) form `base2`
consisting only of characters in `'0'..'9'` or `'A'..'Z'`, decoding returns
the sum over the characters of `digit_value(c) * r ^ position`, with
position 0 at the rightmost character, increasing leftward.  (The
restriction on `base2` is forced by the counterexample: at radix 36 the
validator also lets `'['` through, and decoding then fails with
`IllegalChar` instead of returning a sum.) -/
theorem radix_c7_decode_sum (base base2 : List Char) (r : Nat)
    (hr : is_radix_valid r = true) (hv : validate_base base r = .ok base2)
    (hg : ∀ c ∈ base2, good_char c = true) :
    radix_x_to_dec base r = .ok (power_sum r base2.reverse 0) := by
  have hgrev : ∀ c ∈ base2.reverse, good_char c = true :=
    fun c hm => hg c (List.mem_reverse.mp hm)
  unfold radix_x_to_dec
  simp only [validate_radix_ok hr, hv]
  rw [radix_x_to_dec_loop_spec r hgrev 0 0, power_sum_eq]
  simp

theorem radix_c7_decode_sum_witness :
    radix_x_to_dec ['F', 'F'] 16 = .ok (power_sum 16 (['F', 'F'].reverse) 0) :=
  radix_c7_decode_sum ['F', 'F'] ['F', 'F'] 16 (by decide) rfl (by decide)

/-- C7 (counterexample to the claim as stated): the text `"["` passes
validation at radix 36 (the validator's upper letter bound
`'A' + radix - 10` is the code point 91 = `'['` there), yet decoding it
fails with `IllegalChar '['` instead of returning the positional sum the
claim promises for every validated text. -/
theorem radix_c7_decode_sum_cex :
    validate_base ['['] 36 = .ok ['['] ∧
    radix_x_to_dec ['['] 36 = .error (RadixErr.IllegalChar '[') :=
  ⟨rfl, rfl⟩

/-- C8 (amended): for every radix `r` outside [2,36], `from_str text r`
fails with `RadixNotSupported r` for every input text, and `x.with_radix r`
fails with `RadixNotSupported r` for every `RadixNum` `x` satisfying the
canonical-representation invariant (in particular every value built through
the public API); the requested radix is never clamped or substituted.  (The
restriction on `x` is forced by the counterexample: a hand-crafted value
with an empty digit payload fails with `EmptyInput` instead, because
`with_radix` decodes `self` before validating the target radix.) -/
theorem radix_c8_radix_not_supported :
    (∀ r, is_radix_valid r = false →
      ∀ s, RadixNum.from_str s r = .error (RadixErr.RadixNotSupported r)) ∧
    (∀ r x, is_radix_valid r = false → RadixNum.well_formed x →
      RadixNum.with_radix x r = .error (RadixErr.RadixNotSupported r)) := by
  constructor
  · intro r hr s
    unfold RadixNum.from_str
    simp only [validate_radix_err hr]
  · intro r x hr hx
    have hd := as_decimal_of_well_formed hx
    have hdx : dec_to_radix_x (positional_value x.rx x.digits.reverse) r =
        .error (.RadixNotSupported r) := by
      unfold dec_to_radix_x
      simp only [validate_radix_err hr]
    unfold RadixNum.with_radix
    simp only [hd, hdx]

theorem radix_c8_radix_not_supported_witness :
    RadixNum.from_str ['1'] 37 = .error (RadixErr.RadixNotSupported 37) ∧
    (RadixNum.mk 10 ['4', '2'] rfl).with_radix 1 =
      .error (RadixErr.RadixNotSupported 1) :=
  ⟨radix_c8_radix_not_supported.1 37 (by decide) ['1'],
   radix_c8_radix_not_supported.2 1 (RadixNum.mk 10 ['4', '2'] rfl) (by decide)
     (by decide)⟩

/-- C8 (counterexample to the claim as stated): the claim quantifies over
every `RadixNum`, but the Rust enum's variants are public, so a value
`Radix2("")` is constructible; `with_radix 37` on it decodes `self` first
and fails with `EmptyInput`, not `RadixNotSupported 37`. -/
theorem radix_c8_radix_not_supported_cex :
    (RadixNum.mk 2 [] rfl).with_radix 37 = .error RadixErr.EmptyInput ∧
    RadixErr.EmptyInput ≠ RadixErr.RadixNotSupported 37 :=
  ⟨rfl, by decide⟩

/-- C9: for every `RadixNum` constructed through a public constructor (the
`From` conversions from unsigned integers, `from_str`, or `with_radix`),
`as_decimal` returns `Ok`. -/
theorem radix_c9_as_decimal_ok :
    (∀ n : Nat, ∃ v, (RadixNum.from_nat n).as_decimal = .ok v) ∧
    (∀ s r y, RadixNum.from_str s r = .ok y → ∃ v, y.as_decimal = .ok v) ∧
    (∀ x r y, RadixNum.with_radix x r = .ok y → ∃ v, y.as_decimal = .ok v) := by
  refine ⟨fun n => ⟨n, from_nat_as_decimal n⟩, ?_, ?_⟩
  · intro s r y h
    obtain ⟨_, _, _, _, hw⟩ := from_str_ok_inv h
    exact ⟨_, as_decimal_of_well_formed (with_radix_ok_well_formed hw)⟩
  · intro x r y h
    exact ⟨_, as_decimal_of_well_formed (with_radix_ok_well_formed h)⟩

theorem radix_c9_as_decimal_ok_witness :
    ∃ v, (RadixNum.mk 16 ['F', 'F'] rfl : RadixNum).as_decimal = .ok v :=
  radix_c9_as_decimal_ok.2.1 ['F', 'F'] 16 (RadixNum.mk 16 ['F', 'F'] rfl) rfl

/-- C10: whenever `from_str text r` returns `Ok v`, the result reports
`radix = r`, and whenever `x.with_radix r` returns `Ok y`, `y` reports
`radix = r`: a successful construction always carries exactly the radix that
was requested. -/
theorem radix_c10_radix_reported :
    (∀ s r y, RadixNum.from_str s r = .ok y → y.radix = r) ∧
    (∀ x r y, RadixNum.with_radix x r = .ok y → y.radix = r) := by
  constructor
  · intro s r y h
    obtain ⟨_, _, _, _, hw⟩ := from_str_ok_inv h
    obtain ⟨_, _, _, hrx⟩ := with_radix_ok_inv hw
    exact hrx
  · intro x r y h
    obtain ⟨_, _, _, hrx⟩ := with_radix_ok_inv h
    exact hrx

theorem radix_c10_radix_reported_witness :
    (RadixNum.mk 16 ['F', 'F'] rfl : RadixNum).radix = 16 :=
  radix_c10_radix_reported.2 (RadixNum.from_nat 255) 16
    (RadixNum.mk 16 ['F', 'F'] rfl) rfl

end RadixSpec
